import Mathlib

/-!
Verification of the line-break segmentation exposed by this repository.

The repository's own code is the wrapper `line_break_points` in
src/tools/icu4x-segmenter/src/lib.rs: it drives a UAX 14 line segmenter
over the input text and pushes every produced byte offset, cast with
`as u32`, into the output vector.  The segmentation engine itself lives
in the external icu_segmenter crate and is not part of this repository,
so the engine is modelled here from the specification's description of
the Property Table, the Class Resolver, the Pair-Break rules and the
Segmenter driver.  The wrapper's cast is embedded as reduction modulo
2 ^ 32; text is a sequence of Unicode scalar values and offsets are
UTF-8 byte offsets.
-/

namespace Segmenter

/-- Modelled from the spec: the closed set of UAX 14 line-break classes used
by the engine (the engine lives in the external icu_segmenter crate and is
missing from this repository's sources). -/
inductive LBClass where
  | BK | CR | LF | NL | SP | GL | ZW | WJ | ZWJ | CM
  | AL | NU | ID | NS | OP | CL | QU | BA | HY
  | AI | SG | SA | CJ | XX
deriving DecidableEq, Repr

/-- Verdict for the boundary between two adjacent positions. -/
inductive BreakOpportunity where
  | mandatory | allowed | prohibited
deriving DecidableEq, Repr

/-- Modelled from the spec: the Property Table, mapping each code point to
its line-break class, total, with unassigned code points mapped to XX.
Only the ranges that the specification's behaviour depends on are spelled
out; everything else is the default class. -/
def classify (c : Char) : LBClass :=
  let n := c.toNat
  if n = 0x0A then .LF
  else if n = 0x0D then .CR
  else if n = 0x0B ∨ n = 0x0C ∨ n = 0x2028 ∨ n = 0x2029 then .BK
  else if n = 0x85 then .NL
  else if n = 0x20 then .SP
  else if n = 0xA0 ∨ n = 0x2007 ∨ n = 0x202F then .GL
  else if n = 0x200B then .ZW
  else if n = 0x2060 ∨ n = 0xFEFF then .WJ
  else if n = 0x200D then .ZWJ
  else if 0x300 ≤ n ∧ n ≤ 0x36F then .CM
  else if 0x30 ≤ n ∧ n ≤ 0x39 then .NU
  else if (0x41 ≤ n ∧ n ≤ 0x5A) ∨ (0x61 ≤ n ∧ n ≤ 0x7A) then .AL
  else if n = 0x2D then .HY
  else if (0x4E00 ≤ n ∧ n ≤ 0x9FFF) ∨ (0x3040 ≤ n ∧ n ≤ 0x30FF) then .ID
  else .XX

/-- Modelled from the spec: rule LB1, resolving the ambiguous classes
AI, SG, XX, SA to AL and CJ to NS, once, up front, for every position. -/
def lb1 : LBClass → LBClass
  | .AI => .AL
  | .SG => .AL
  | .XX => .AL
  | .SA => .AL
  | .CJ => .NS
  | c => c

/-- Modelled from the spec: whether a class can serve as the base that a
combining mark attaches to (rules LB9/LB10): anything but a hard break,
space or zero-width space. -/
def canAbsorb (b : LBClass) : Bool :=
  !(b = .BK || b = .CR || b = .LF || b = .NL || b = .SP || b = .ZW)

/-- Modelled from the spec: the Class Resolver.  A single left-to-right
pass that replaces each CM or ZWJ by the class of its base (marking the
position as attached, so the boundary before it is prohibited), or by AL
when there is no base to attach to.  All other classes pass through. -/
def resolveAux : Option LBClass → List LBClass → List (LBClass × Bool)
  | _, [] => []
  | b, c :: rest =>
      if c = .CM ∨ c = .ZWJ then
        match b with
        | some base =>
            if canAbsorb base then (base, true) :: resolveAux (some base) rest
            else (.AL, false) :: resolveAux (some .AL) rest
        | none => (.AL, false) :: resolveAux (some .AL) rest
      else (c, false) :: resolveAux (some c) rest

/-- Modelled from the spec: the Pair-Break rules, a fixed precedence chain
where the first matching rule wins.  Mandatory breaks after hard break
classes come first, then the prohibitions, then the allowances, then the
default of rule LB31. -/
def decideBreak (prev curr : LBClass) : BreakOpportunity :=
  if prev = .BK ∨ prev = .LF ∨ prev = .NL then .mandatory
  else if prev = .CR then (if curr = .LF then .prohibited else .mandatory)
  else if curr = .BK ∨ curr = .CR ∨ curr = .LF ∨ curr = .NL then .prohibited
  else if curr = .SP ∨ curr = .ZW then .prohibited
  else if prev = .ZW then .allowed
  else if prev = .WJ ∨ curr = .WJ then .prohibited
  else if prev = .GL then .prohibited
  else if curr = .GL ∧ ¬(prev = .SP ∨ prev = .BA ∨ prev = .HY) then .prohibited
  else if curr = .CL then .prohibited
  else if prev = .OP then .prohibited
  else if prev = .SP then .allowed
  else if prev = .QU ∨ curr = .QU then .prohibited
  else if curr = .BA ∨ curr = .HY ∨ curr = .NS then .prohibited
  else if prev = .BA ∨ prev = .HY then .allowed
  else if (prev = .AL ∨ prev = .NU) ∧ (curr = .AL ∨ curr = .NU) then .prohibited
  else if curr = .CM ∨ curr = .ZWJ then .prohibited
  else .allowed

/-- Modelled from the spec: the preprocessing pipeline of the Segmenter:
classify every code point, apply LB1, run the Class Resolver, and pair
every position with its UTF-8 byte size. -/
def prep (cs : List Char) : List ((LBClass × Bool) × Nat) :=
  List.zip (resolveAux none (cs.map (fun c => lb1 (classify c)))) (cs.map Char.utf8Size)

/-- Modelled from the spec: the Segmenter loop.  `prev` is the resolved
class before the boundary, `pos` the byte offset of the boundary after
`prev`.  A boundary is emitted when the pair verdict is Mandatory or
Allowed (and the position is not an attached combining mark); the final
end-of-text offset is always emitted. -/
def segAux : LBClass → Nat → List ((LBClass × Bool) × Nat) → List Nat
  | _, pos, [] => [pos]
  | prev, pos, ((c, att), sz) :: rest =>
      if att = true ∨ decideBreak prev c = .prohibited then segAux c (pos + sz) rest
      else pos :: segAux c (pos + sz) rest

/-- Modelled from the spec: the Segmenter entry point, producing the byte
offsets of the break opportunities of a text, always terminated by the
end-of-text offset; the empty text yields exactly the offset 0. -/
def segmentOffsets (cs : List Char) : List Nat :=
  match prep cs with
  | [] => [0]
  | ((c, _), sz) :: rest => segAux c sz rest

/-- Total UTF-8 byte length of a text. -/
def byteLen (cs : List Char) : Nat :=
  (cs.map Char.utf8Size).sum

/-- The wrapper from src/tools/icu4x-segmenter/src/lib.rs: it iterates the
segmenter's offsets and pushes each one cast `as u32`, embedded here as
reduction modulo 2 ^ 32. -/
def line_break_points (cs : List Char) : List Nat :=
  (segmentOffsets cs).map (fun idx => idx % 2 ^ 32)

/-- Sum of the byte sizes of a preprocessed suffix. -/
def sizeSum (l : List ((LBClass × Bool) × Nat)) : Nat :=
  (l.map Prod.snd).sum

/-- Modelled from the spec: the driver state machine
(Start, InText, End) of the Segmenter, made explicit so that bounded
termination and independence of interleaved calls can be stated. -/
structure SegState where
  prev : LBClass
  pos : Nat
  rest : List ((LBClass × Bool) × Nat)
  out : List Nat
  done : Bool

/-- Modelled from the spec: the Start transition, consuming the first code
point of the text; an empty text starts at the trivial end boundary. -/
def initState (cs : List Char) : SegState :=
  match prep cs with
  | [] => ⟨LBClass.AL, 0, [], [], false⟩
  | ((c, _), sz) :: rest => ⟨c, sz, rest, [], false⟩

/-- Modelled from the spec: one InText step of the driver: decide the
boundary before the next code point, or emit the final offset and stop. -/
def step (s : SegState) : SegState :=
  if s.done = true then s
  else
    match s.rest with
    | [] => ⟨s.prev, s.pos, [], s.out ++ [s.pos], true⟩
    | ((c, att), sz) :: rest =>
        if att = true ∨ decideBreak s.prev c = .prohibited then
          ⟨c, s.pos + sz, rest, s.out, false⟩
        else
          ⟨c, s.pos + sz, rest, s.out ++ [s.pos], false⟩

/-- Iterate the driver a given number of steps. -/
def stepN : Nat → SegState → SegState
  | 0, s => s
  | n + 1, s => stepN n (step s)

/-- Advance one of two independent in-flight segmentation calls. -/
def stepPair (which : Bool) (p : SegState × SegState) : SegState × SegState :=
  if which then (step p.1, p.2) else (p.1, step p.2)

/-- Run two independent segmentation calls under an arbitrary
interleaving schedule. -/
def runSched : List Bool → SegState × SegState → SegState × SegState
  | [], p => p
  | b :: bs, p => runSched bs (stepPair b p)

end Segmenter

namespace Segmenter

theorem resolveAux_length : ∀ (l : List LBClass) (b : Option LBClass),
    (resolveAux b l).length = l.length := by
  intro l
  induction l with
  | nil => intro b; rfl
  | cons c rest ih =>
      intro b
      by_cases h : c = LBClass.CM ∨ c = LBClass.ZWJ
      · cases b with
        | none => simp [resolveAux, h, ih]
        | some base =>
            by_cases hb : canAbsorb base = true
            · simp [resolveAux, h, hb, ih]
            · simp [resolveAux, h, hb, ih]
      · simp [resolveAux, h, ih]

theorem prep_snd (cs : List Char) : (prep cs).map Prod.snd = cs.map Char.utf8Size := by
  unfold prep
  apply List.map_snd_zip
  simp [resolveAux_length]

theorem prep_length (cs : List Char) : (prep cs).length = cs.length := by
  unfold prep
  simp [List.length_zip, resolveAux_length]

theorem byteLen_prep (cs : List Char) : byteLen cs = sizeSum (prep cs) := by
  unfold byteLen sizeSum
  rw [prep_snd]

theorem prep_sz_pos (cs : List Char) : ∀ x ∈ prep cs, 0 < x.2 := by
  intro x hx
  have h1 : x.2 ∈ (prep cs).map Prod.snd := List.mem_map_of_mem Prod.snd hx
  rw [prep_snd] at h1
  obtain ⟨c, _, he⟩ := List.mem_map.mp h1
  rw [← he]
  exact Char.utf8Size_pos c

theorem sizeSum_cons (a : (LBClass × Bool) × Nat) (l : List ((LBClass × Bool) × Nat)) :
    sizeSum (a :: l) = a.2 + sizeSum l := by
  simp [sizeSum]

theorem segAux_concat : ∀ (l : List ((LBClass × Bool) × Nat)) (c : LBClass) (pos : Nat),
    ∃ front : List Nat, segAux c pos l = front ++ [pos + sizeSum l] := by
  intro l
  induction l with
  | nil =>
      intro c pos
      exact ⟨[], by simp [segAux, sizeSum]⟩
  | cons hd rest ih =>
      obtain ⟨⟨c2, att⟩, sz⟩ := hd
      intro c pos
      obtain ⟨f, hf⟩ := ih c2 (pos + sz)
      by_cases h : att = true ∨ decideBreak c c2 = BreakOpportunity.prohibited
      · refine ⟨f, ?_⟩
        show segAux c pos (((c2, att), sz) :: rest) = _
        unfold segAux
        rw [if_pos h, hf, sizeSum_cons, ← Nat.add_assoc]
      · refine ⟨pos :: f, ?_⟩
        show segAux c pos (((c2, att), sz) :: rest) = _
        unfold segAux
        rw [if_neg h, hf, sizeSum_cons, ← Nat.add_assoc, List.cons_append]

theorem segAux_mem : ∀ (l : List ((LBClass × Bool) × Nat)) (c : LBClass) (pos o : Nat),
    o ∈ segAux c pos l → pos ≤ o ∧ o ≤ pos + sizeSum l := by
  intro l
  induction l with
  | nil =>
      intro c pos o ho
      simp [segAux] at ho
      simp [ho, sizeSum]
  | cons hd rest ih =>
      obtain ⟨⟨c2, att⟩, sz⟩ := hd
      intro c pos o ho
      rw [sizeSum_cons]
      by_cases h : att = true ∨ decideBreak c c2 = BreakOpportunity.prohibited
      · rw [show segAux c pos (((c2, att), sz) :: rest) = segAux c2 (pos + sz) rest from by
          simp only [segAux]; rw [if_pos h]] at ho
        have := ih c2 (pos + sz) o ho
        omega
      · rw [show segAux c pos (((c2, att), sz) :: rest) = pos :: segAux c2 (pos + sz) rest from by
          simp only [segAux]; rw [if_neg h]] at ho
        rcases List.mem_cons.mp ho with he | ho2
        · omega
        · have := ih c2 (pos + sz) o ho2
          omega

theorem segAux_pairwise : ∀ (l : List ((LBClass × Bool) × Nat)) (c : LBClass) (pos : Nat),
    (∀ x ∈ l, 0 < x.2) → List.Pairwise (· < ·) (segAux c pos l) := by
  intro l
  induction l with
  | nil =>
      intro c pos _
      simp [segAux]
  | cons hd rest ih =>
      obtain ⟨⟨c2, att⟩, sz⟩ := hd
      intro c pos hpos
      have hsz : 0 < sz := hpos _ (List.mem_cons_self _ _)
      have hrest : ∀ x ∈ rest, 0 < x.2 := fun x hx => hpos x (List.mem_cons_of_mem _ hx)
      by_cases h : att = true ∨ decideBreak c c2 = BreakOpportunity.prohibited
      · rw [show segAux c pos (((c2, att), sz) :: rest) = segAux c2 (pos + sz) rest from by
          simp only [segAux]; rw [if_pos h]]
        exact ih c2 (pos + sz) hrest
      · rw [show segAux c pos (((c2, att), sz) :: rest) = pos :: segAux c2 (pos + sz) rest from by
          simp only [segAux]; rw [if_neg h]]
        refine List.pairwise_cons.mpr ⟨?_, ih c2 (pos + sz) hrest⟩
        intro o ho
        have := segAux_mem rest c2 (pos + sz) o ho
        omega

end Segmenter

namespace Segmenter

theorem prep_nil_of (cs : List Char) (hp : prep cs = []) : cs = [] := by
  have h := prep_length cs
  rw [hp] at h
  exact List.length_eq_zero.mp h.symm

theorem segmentOffsets_concat (cs : List Char) (h : cs ≠ []) :
    ∃ front : List Nat, segmentOffsets cs = front ++ [byteLen cs] := by
  cases hp : prep cs with
  | nil => exact absurd (prep_nil_of cs hp) h
  | cons hd tl =>
      obtain ⟨⟨c2, att⟩, sz⟩ := hd
      obtain ⟨f, hf⟩ := segAux_concat tl c2 sz
      refine ⟨f, ?_⟩
      have hs : segmentOffsets cs = segAux c2 sz tl := by
        unfold segmentOffsets
        rw [hp]
      have hb : byteLen cs = sz + sizeSum tl := by
        rw [byteLen_prep, hp, sizeSum_cons]
      rw [hs, hf, hb]

theorem segmentOffsets_le (cs : List Char) : ∀ o ∈ segmentOffsets cs, o ≤ byteLen cs := by
  intro o ho
  cases hp : prep cs with
  | nil =>
      have hs : segmentOffsets cs = [0] := by
        unfold segmentOffsets
        rw [hp]
      rw [hs] at ho
      simp at ho
      simp [ho]
  | cons hd tl =>
      obtain ⟨⟨c2, att⟩, sz⟩ := hd
      have hs : segmentOffsets cs = segAux c2 sz tl := by
        unfold segmentOffsets
        rw [hp]
      rw [hs] at ho
      have h2 := segAux_mem tl c2 sz o ho
      have hb : byteLen cs = sz + sizeSum tl := by
        rw [byteLen_prep, hp, sizeSum_cons]
      omega

theorem segmentOffsets_pos (cs : List Char) (h : cs ≠ []) :
    ∀ o ∈ segmentOffsets cs, 0 < o := by
  intro o ho
  cases hp : prep cs with
  | nil => exact absurd (prep_nil_of cs hp) h
  | cons hd tl =>
      obtain ⟨⟨c2, att⟩, sz⟩ := hd
      have hs : segmentOffsets cs = segAux c2 sz tl := by
        unfold segmentOffsets
        rw [hp]
      rw [hs] at ho
      have h2 := segAux_mem tl c2 sz o ho
      have hsz : 0 < sz := by
        have hm : ((c2, att), sz) ∈ prep cs := by
          rw [hp]
          exact List.mem_cons_self _ _
        exact prep_sz_pos cs _ hm
      omega

theorem segmentOffsets_sorted (cs : List Char) :
    List.Pairwise (· < ·) (segmentOffsets cs) := by
  cases hp : prep cs with
  | nil =>
      have hs : segmentOffsets cs = [0] := by
        unfold segmentOffsets
        rw [hp]
      simp [hs]
  | cons hd tl =>
      obtain ⟨⟨c2, att⟩, sz⟩ := hd
      have hs : segmentOffsets cs = segAux c2 sz tl := by
        unfold segmentOffsets
        rw [hp]
      rw [hs]
      refine segAux_pairwise tl c2 sz ?_
      intro x hx
      refine prep_sz_pos cs x ?_
      rw [hp]
      exact List.mem_cons_of_mem _ hx

theorem map_mod_eq (l : List Nat) (h : ∀ o ∈ l, o < 2 ^ 32) :
    l.map (fun idx => idx % 2 ^ 32) = l := by
  induction l with
  | nil => rfl
  | cons a t ih =>
      simp only [List.map_cons]
      rw [Nat.mod_eq_of_lt (h a (List.mem_cons_self a t)),
        ih (fun o ho => h o (List.mem_cons_of_mem a ho))]

theorem lbp_eq_of_lt (cs : List Char) (h : byteLen cs < 2 ^ 32) :
    line_break_points cs = segmentOffsets cs := by
  unfold line_break_points
  exact map_mod_eq _ (fun o ho => lt_of_le_of_lt (segmentOffsets_le cs o ho) h)

end Segmenter

namespace Segmenter

theorem step_of_done (s : SegState) (h : s.done = true) : step s = s := by
  unfold step
  rw [if_pos h]

theorem stepN_of_done : ∀ (n : Nat) (s : SegState), s.done = true → stepN n s = s := by
  intro n
  induction n with
  | zero => intro s _; rfl
  | succ k ih =>
      intro s h
      show stepN k (step s) = s
      rw [step_of_done s h]
      exact ih s h

theorem stepN_add (m : Nat) : ∀ (n : Nat) (s : SegState),
    stepN (m + n) s = stepN m (stepN n s) := by
  intro n
  induction n with
  | zero => intro s; rfl
  | succ k ih =>
      intro s
      show stepN (m + k) (step s) = stepN m (stepN k (step s))
      exact ih (step s)

theorem run_spec : ∀ (l : List ((LBClass × Bool) × Nat)) (c : LBClass) (pos : Nat) (out : List Nat),
    (stepN (l.length + 1) ⟨c, pos, l, out, false⟩).out = out ++ segAux c pos l ∧
    (stepN (l.length + 1) ⟨c, pos, l, out, false⟩).done = true := by
  intro l
  induction l with
  | nil =>
      intro c pos out
      constructor <;> simp [stepN, step, segAux]
  | cons hd rest ih =>
      obtain ⟨⟨c2, att⟩, sz⟩ := hd
      intro c pos out
      have key : stepN ((((c2, att), sz) :: rest).length + 1) ⟨c, pos, ((c2, att), sz) :: rest, out, false⟩
          = stepN (rest.length + 1) (step ⟨c, pos, ((c2, att), sz) :: rest, out, false⟩) := by
        simp only [List.length_cons]
        rfl
      by_cases h : att = true ∨ decideBreak c c2 = BreakOpportunity.prohibited
      · have hstep : step ⟨c, pos, ((c2, att), sz) :: rest, out, false⟩
            = ⟨c2, pos + sz, rest, out, false⟩ := by
          simp [step, h]
        have hseg : segAux c pos (((c2, att), sz) :: rest) = segAux c2 (pos + sz) rest := by
          simp only [segAux]
          rw [if_pos h]
        rw [key, hstep, hseg]
        exact ih c2 (pos + sz) out
      · have hstep : step ⟨c, pos, ((c2, att), sz) :: rest, out, false⟩
            = ⟨c2, pos + sz, rest, out ++ [pos], false⟩ := by
          simp [step, h]
        have hseg : segAux c pos (((c2, att), sz) :: rest) = pos :: segAux c2 (pos + sz) rest := by
          simp only [segAux]
          rw [if_neg h]
        rw [key, hstep, hseg]
        obtain ⟨ih1, ih2⟩ := ih c2 (pos + sz) (out ++ [pos])
        refine ⟨?_, ih2⟩
        rw [ih1, List.append_assoc, List.singleton_append]

theorem machine_run (cs : List Char) :
    (stepN (cs.length + 1) (initState cs)).out = segmentOffsets cs ∧
    (stepN (cs.length + 1) (initState cs)).done = true := by
  cases hp : prep cs with
  | nil =>
      have hlen : cs.length = 0 := by
        rw [← prep_length cs, hp]
        rfl
      have hi : initState cs = ⟨LBClass.AL, 0, [], [], false⟩ := by
        unfold initState
        rw [hp]
      have hs : segmentOffsets cs = [0] := by
        unfold segmentOffsets
        rw [hp]
      rw [hlen, hi, hs]
      have h0 := run_spec [] LBClass.AL 0 []
      simpa using h0
  | cons hd tl =>
      obtain ⟨⟨c2, att⟩, sz⟩ := hd
      have hlen : cs.length = tl.length + 1 := by
        rw [← prep_length cs, hp]
        rfl
      have hi : initState cs = ⟨c2, sz, tl, [], false⟩ := by
        unfold initState
        rw [hp]
      have hs : segmentOffsets cs = segAux c2 sz tl := by
        unfold segmentOffsets
        rw [hp]
      rw [hlen, hi, hs]
      obtain ⟨h1, h2⟩ := run_spec tl c2 sz []
      have hadd : tl.length + 1 + 1 = 1 + (tl.length + 1) := by omega
      rw [hadd, stepN_add 1 (tl.length + 1)]
      rw [stepN_of_done 1 _ h2]
      rw [List.nil_append] at h1
      exact ⟨h1, h2⟩

theorem stepN_out_of_le (cs : List Char) (m : Nat) (h : cs.length + 1 ≤ m) :
    (stepN m (initState cs)).out = segmentOffsets cs := by
  obtain ⟨k, hk⟩ : ∃ k, m = k + (cs.length + 1) := ⟨m - (cs.length + 1), by omega⟩
  rw [hk, stepN_add k (cs.length + 1)]
  rw [stepN_of_done k _ (machine_run cs).2]
  exact (machine_run cs).1

theorem runSched_eq : ∀ (sched : List Bool) (p : SegState × SegState),
    runSched sched p = (stepN (sched.count true) p.1, stepN (sched.count false) p.2) := by
  intro sched
  induction sched with
  | nil => intro p; rfl
  | cons b bs ih =>
      intro p
      show runSched bs (stepPair b p) = _
      rw [ih]
      cases b
      case false =>
        simp [stepPair, List.count_cons, stepN]
      case true =>
        simp [stepPair, List.count_cons, stepN]

end Segmenter

namespace Segmenter

/-- Claim C1: for every non-empty input text, the sequence returned by
line_break_points is non-empty and its last element equals the input's
length in UTF-8 bytes: the segmenter's last offset is exactly the byte
length, and through the wrapper's u32 cast the same value is returned
whenever the byte length is below 2 ^ 32 (always the case for a string
of a 32-bit wasm host, whose usize is 32 bits wide). -/
theorem claim_C1 (cs : List Char) (h : cs ≠ []) :
    line_break_points cs ≠ [] ∧
    (segmentOffsets cs).getLast? = some (byteLen cs) ∧
    (byteLen cs < 2 ^ 32 → (line_break_points cs).getLast? = some (byteLen cs)) := by
  obtain ⟨f, hf⟩ := segmentOffsets_concat cs h
  refine ⟨?_, ?_, ?_⟩
  · unfold line_break_points
    rw [hf]
    simp
  · rw [hf]
    exact List.getLast?_concat f
  · intro hlt
    rw [lbp_eq_of_lt cs hlt, hf]
    exact List.getLast?_concat f

/-- Witness for claim C1 at the concrete five-byte text "ab cd". -/
theorem claim_C1_witness :
    line_break_points ['a', 'b', ' ', 'c', 'd'] ≠ [] ∧
    (segmentOffsets ['a', 'b', ' ', 'c', 'd']).getLast?
      = some (byteLen ['a', 'b', ' ', 'c', 'd']) ∧
    (byteLen ['a', 'b', ' ', 'c', 'd'] < 2 ^ 32 →
      (line_break_points ['a', 'b', ' ', 'c', 'd']).getLast?
        = some (byteLen ['a', 'b', ' ', 'c', 'd'])) :=
  claim_C1 ['a', 'b', ' ', 'c', 'd'] (by decide)

/-- Claim C2: for every input text the sequence of offsets is strictly
increasing, hence free of duplicates; this holds for the segmenter's
offsets unconditionally, and for the values returned by
line_break_points whenever the byte length is below 2 ^ 32 (always the
case for a string of a 32-bit wasm host). -/
theorem claim_C2 (cs : List Char) :
    List.Pairwise (· < ·) (segmentOffsets cs) ∧
    (byteLen cs < 2 ^ 32 → List.Pairwise (· < ·) (line_break_points cs)) := by
  refine ⟨segmentOffsets_sorted cs, ?_⟩
  intro hlt
  rw [lbp_eq_of_lt cs hlt]
  exact segmentOffsets_sorted cs

/-- Witness for claim C2 at the concrete text "ab cd". -/
theorem claim_C2_witness :
    List.Pairwise (· < ·) (segmentOffsets ['a', 'b', ' ', 'c', 'd']) ∧
    List.Pairwise (· < ·) (line_break_points ['a', 'b', ' ', 'c', 'd']) :=
  ⟨(claim_C2 ['a', 'b', ' ', 'c', 'd']).1,
   (claim_C2 ['a', 'b', ' ', 'c', 'd']).2 (by decide)⟩

/-- Claim C3: line_break_points on the empty text returns exactly the
sequence consisting of the single offset 0. -/
theorem claim_C3 : line_break_points [] = [0] := by decide

/-- Claim C4: line_break_points on the five-byte text "ab cd" returns
exactly the offsets 3 and 5: the allowed break after the space, and the
end-of-text break. -/
theorem claim_C4 :
    line_break_points ['a', 'b', ' ', 'c', 'd'] = [3, 5] ∧
    byteLen ['a', 'b', ' ', 'c', 'd'] = 5 := by decide

/-- Claim C5: line_break_points on the three-byte text of a letter, a
line feed and a letter returns exactly the offsets 2 and 3: the
mandatory break immediately after the line feed, and the end-of-text
break. -/
theorem claim_C5 :
    line_break_points ['a', '\u000A', 'b'] = [2, 3] ∧
    byteLen ['a', '\u000A', 'b'] = 3 := by decide

/-- Claim C6: for a letter, a no-break space (U+00A0, glue class) and a
letter, line_break_points produces no break at either boundary adjacent
to the no-break space: the only returned offset is the end-of-text
offset (4, since the no-break space occupies two UTF-8 bytes). -/
theorem claim_C6 :
    line_break_points ['a', '\u00A0', 'b'] = [byteLen ['a', '\u00A0', 'b']] ∧
    byteLen ['a', '\u00A0', 'b'] = 4 := by decide

/-- Claim C7: two independent segmentation calls, driven interleaved
under an arbitrary schedule that gives each call enough steps, each
produce exactly the offsets of their own text: the result of a call
depends only on its own input, never on the other call or on the
interleaving, and two calls on the same text yield identical
sequences. -/
theorem claim_C7 (sched : List Bool) (t1 t2 : List Char)
    (h1 : t1.length + 1 ≤ sched.count true)
    (h2 : t2.length + 1 ≤ sched.count false) :
    (runSched sched (initState t1, initState t2)).1.out = segmentOffsets t1 ∧
    (runSched sched (initState t1, initState t2)).2.out = segmentOffsets t2 := by
  rw [runSched_eq]
  exact ⟨stepN_out_of_le t1 _ h1, stepN_out_of_le t2 _ h2⟩

/-- Witness for claim C7: an alternating schedule driving a call on a
text with a line feed interleaved with a call on a text with a space. -/
theorem claim_C7_witness :
    (runSched [true, false, true, false, true, false, true, false]
        (initState ['a', '\u000A', 'b'], initState ['a', ' ', 'b'])).1.out
      = segmentOffsets ['a', '\u000A', 'b'] ∧
    (runSched [true, false, true, false, true, false, true, false]
        (initState ['a', '\u000A', 'b'], initState ['a', ' ', 'b'])).2.out
      = segmentOffsets ['a', ' ', 'b'] :=
  claim_C7 [true, false, true, false, true, false, true, false]
    ['a', '\u000A', 'b'] ['a', ' ', 'b'] (by decide) (by decide)

/-- Claim C8: for every input text the driver reaches its End state and
has produced the complete result within a number of steps bounded by the
text length plus one: segmentation always terminates with a full result,
never aborting mid-text or leaving partial output. -/
theorem claim_C8 (cs : List Char) :
    (stepN (cs.length + 1) (initState cs)).done = true ∧
    (stepN (cs.length + 1) (initState cs)).out = segmentOffsets cs :=
  ⟨(machine_run cs).2, (machine_run cs).1⟩

/-- Counterexample to claim C9: on the non-empty text "ab cd" the first
returned offset is 3, not 0, so the start-of-text boundary is not
emitted. -/
theorem claim_C9_counterexample :
    ¬ (line_break_points ['a', 'b', ' ', 'c', 'd']).head? = some 0 := by
  decide

/-- Claim C9 as amended: the first element is 0 exactly for the empty
text; for every non-empty text every offset produced by the segmenter is
strictly positive, so the first returned element is never 0 (and the
same holds through the u32 cast whenever the byte length is below
2 ^ 32). -/
theorem claim_C9 :
    line_break_points [] = [0] ∧
    ∀ cs : List Char, cs ≠ [] →
      (∀ o ∈ segmentOffsets cs, 0 < o) ∧
      (byteLen cs < 2 ^ 32 → ∀ o ∈ line_break_points cs, 0 < o) := by
  refine ⟨by decide, ?_⟩
  intro cs h
  refine ⟨segmentOffsets_pos cs h, ?_⟩
  intro hlt o ho
  rw [lbp_eq_of_lt cs hlt] at ho
  exact segmentOffsets_pos cs h o ho

/-- Witness for the amended claim C9 at the one-letter text "a", whose
single returned offset is 1. -/
theorem claim_C9_witness : (0 : Nat) < 1 :=
  (claim_C9.2 ['a'] (by decide)).2 (by decide) 1 (by decide)

/-- Claim C10: every returned element is the segmenter's byte offset
reduced modulo 2 ^ 32, exactly mirroring the wrapper's cast of usize to
u32; for every text shorter than 2 ^ 32 bytes the conversion is exact
and line_break_points returns the true byte offsets. -/
theorem claim_C10 (cs : List Char) :
    line_break_points cs = (segmentOffsets cs).map (fun idx => idx % 2 ^ 32) ∧
    (byteLen cs < 2 ^ 32 → line_break_points cs = segmentOffsets cs) :=
  ⟨rfl, fun h => lbp_eq_of_lt cs h⟩

/-- Witness for claim C10 at the concrete text "ab cd". -/
theorem claim_C10_witness :
    line_break_points ['a', 'b', ' ', 'c', 'd']
      = (segmentOffsets ['a', 'b', ' ', 'c', 'd']).map (fun idx => idx % 2 ^ 32) ∧
    line_break_points ['a', 'b', ' ', 'c', 'd']
      = segmentOffsets ['a', 'b', ' ', 'c', 'd'] :=
  ⟨(claim_C10 ['a', 'b', ' ', 'c', 'd']).1,
   (claim_C10 ['a', 'b', ' ', 'c', 'd']).2 (by decide)⟩

end Segmenter
